import Mathlib

/-!
Shallow embedding of the badger-backed blob store
(`github.com/elek/storj-badger-storage`, current revision: the badger/v4
variants of `keys.go`, `writer.go`, `reader.go`, `blobs.go`).

Bytes are modelled as `List Nat` (each element a byte value), the badger
key-value engine as an association list of `(key, value)` pairs together
with the operations the store uses (`Set`, `Get`, `Delete`, and a
prefix-bounded ascending iterator).  Go's `time.Time` is modelled by its
Unix-seconds and nanosecond components, which is all `key`/`stat` consume.
-/

/-- Byte strings are lists of byte values. -/
abbrev Bytes := List Nat

/-- Bytes of a literal ASCII string (Go `[]byte("...")`). -/
def byteStr (s : String) : Bytes := s.toList.map Char.toNat

/-- The `blobs` partition tag (`var blobPrefix = []byte("blobs")`). -/
def blobPref : Bytes := byteStr "blobs"

/-- The `trash` partition tag (`var trashPrefix = []byte("trash")`). -/
def trashPref : Bytes := byteStr "trash"

/-- The namespace-marker tag (`var namespacePrefix = []byte("nmspc")`). -/
def namespacePref : Bytes := byteStr "nmspc"

/-- Go `bytes`-style prefix test, as used by badger's `ValidForPrefix` and
iterator `Prefix` option. -/
def isPref : Bytes → Bytes → Bool
  | [], _ => true
  | _ :: _, [] => false
  | a :: as, b :: bs => a == b && isPref as bs

/-- Lexicographic byte-string comparison; badger iterates keys in this
ascending order. -/
def lexLt : Bytes → Bytes → Bool
  | _, [] => false
  | [], _ :: _ => true
  | a :: as, b :: bs => if a < b then true else if b < a then false else lexLt as bs

/-- Big-endian base-256 digits of `n`, `w` bytes wide
(`binary.BigEndian.AppendUint64` produces `beBytes 8`). -/
def beBytes : Nat → Nat → Bytes
  | 0, _ => []
  | w + 1, n => (n / 256 ^ w) % 256 :: beBytes w n

/-- Big-endian read of a byte string (`binary.BigEndian.Uint64` on an
8-byte slice). -/
def beRead (bs : Bytes) : Nat := bs.foldl (fun a b => a * 256 + b) 0

/-- Go's `uint64(x)` conversion of a signed 64-bit value. -/
def uint64Of (x : Int) : Nat := (x % (2 ^ 64 : Int)).toNat

/-- Go's `int64(u)` / `int(u)` reinterpretation of an unsigned 64-bit value. -/
def int64Of (u : Nat) : Int := if u < 2 ^ 63 then (u : Int) else (u : Int) - 2 ^ 64

/-- A Go `time.Time`, reduced to the components the key codec reads:
Unix seconds (`t.Unix()`) and the sub-second part. -/
structure GoTime where
  sec : Int
  nsec : Nat
deriving DecidableEq

/-- Go `time.Unix(sec, 0)` as used by `stat`. -/
def timeUnixSec (s : Int) : GoTime := { sec := s, nsec := 0 }

/-- `storage.BlobRef`: a namespace plus a key addressing one logical blob. -/
structure BlobRef where
  Namespace : Bytes
  Key : Bytes
deriving DecidableEq

/-- `key(ref, time, size)`: `blobPrefix ‖ ref.Namespace ‖ ref.Key ‖`
big-endian `uint64(time.Unix())` ‖ big-endian `uint64(size)`. -/
def key (ref : BlobRef) (t : GoTime) (size : Int) : Bytes :=
  blobPref ++ ref.Namespace ++ ref.Key ++ beBytes 8 (uint64Of t.sec) ++ beBytes 8 (uint64Of size)

/-- `stat(from)`: reads the trailing 16 bytes of a key as two big-endian
64-bit integers and returns `(time.Unix(int64(seconds), 0), int(bytes))`. -/
def stat (from_ : Bytes) : GoTime × Int :=
  let k := from_.drop (from_.length - 16)
  let seconds := beRead (k.take 8)
  let bytes := beRead (k.drop 8)
  (timeUnixSec (int64Of seconds), int64Of bytes)

/-- `keyPrefix(ref) = blobPrefix ‖ ref.Namespace ‖ ref.Key`: the scan prefix
of the live records of `ref`. -/
def keyPref (ref : BlobRef) : Bytes := blobPref ++ ref.Namespace ++ ref.Key

/-- `trashKey(ref) = trashPrefix ‖ ref.Namespace ‖ ref.Key`. -/
def trashKeyPref (ref : BlobRef) : Bytes := trashPref ++ ref.Namespace ++ ref.Key

/-- One record persisted in the key-value engine. -/
abbrev Entry := Bytes × Bytes

/-- The state of the badger engine: the set of stored records, as an
association list with distinct keys. -/
abbrev Store := List Entry

/-- Badger `txn.Set(k, v)`: overwrites the value when `k` exists, otherwise
adds a record. -/
def txnSet (s : Store) (k v : Bytes) : Store :=
  if s.any (fun e => e.1 == k) then s.map (fun e => if e.1 == k then (k, v) else e)
  else s ++ [(k, v)]

/-- Badger `txn.Get(k)`. -/
def txnGet (s : Store) (k : Bytes) : Option Bytes :=
  (s.find? (fun e => e.1 == k)).map (fun e => e.2)

/-- Badger `txn.Delete(k)` in a read-write transaction. -/
def txnDelete (s : Store) (k : Bytes) : Store :=
  s.filter (fun e => !(e.1 == k))

/-- Insertion step of the key-ordered view of the store. -/
def insertEntry (e : Entry) : List Entry → List Entry
  | [] => [e]
  | f :: fs => if lexLt f.1 e.1 then f :: insertEntry e fs else e :: f :: fs

/-- The records sorted in ascending key order, the order in which a badger
iterator visits them. -/
def sortByKey (s : Store) : List Entry := s.foldr insertEntry []

/-- The snapshot a prefix-bounded iterator walks: the records whose key
starts with `p`, in ascending key order
(`it.Seek(pref); it.ValidForPrefix(pref); it.Next()`). -/
def scanAsc (s : Store) (p : Bytes) : List Entry :=
  sortByKey (s.filter (fun e => isPref p e.1))

/-- The in-memory blob reader: `offset`, `length`, and the copied value. -/
structure Reader where
  offset : Nat
  length : Nat
  buffer : Bytes
deriving DecidableEq

/-- `NewReader(db, ref)`: prefix-scans `keyPrefix(ref)`, copies the value of
the first matching record and stops; errors with `missing blob` when no
record matches. -/
def NewReader (s : Store) (ref : BlobRef) : Except String Reader :=
  match scanAsc s (keyPref ref) with
  | [] => .error "missing blob"
  | (_, v) :: _ => .ok { offset := 0, length := v.length, buffer := v }

/-- `(*reader).Read(p)` with `plen = len(p)`: returns `none` at end of
stream (`io.EOF`), otherwise copies from `buffer[offset:]` and advances
the cursor. -/
def Reader.Read (r : Reader) (plen : Nat) : Option (Bytes × Reader) :=
  if r.length ≤ r.offset then none
  else
    let n := min plen (r.buffer.length - r.offset)
    some ((r.buffer.drop r.offset).take n, { r with offset := r.offset + n })

/-- `(*reader).ReadAt(p, off)`: copies from `buffer[off:]` and also advances
the sequential cursor by the copied count; `none` models the Go slice
panic when `off` exceeds the buffer length. -/
def Reader.ReadAt (r : Reader) (plen : Nat) (off : Nat) : Option (Nat × Bytes × Reader) :=
  if off ≤ r.buffer.length then
    let n := min plen (r.buffer.length - off)
    some (n, (r.buffer.drop off).take n, { r with offset := r.offset + n })
  else none

/-- Repeated `Read` calls (the `io.ReadAll` loop), concatenating the chunks
until end of stream; `fuel` bounds the recursion. -/
def readToEnd : Nat → Reader → Nat → Bytes
  | 0, _, _ => []
  | fuel + 1, r, plen =>
    match r.Read plen with
    | none => []
    | some (bs, r2) => bs ++ readToEnd fuel r2 plen

/-- Reading a freshly conducted reader to end of stream. -/
def readAll (r : Reader) : Bytes := readToEnd (r.length + 1) r 1

/-- The writer's staging-buffer capacity: `make([]byte, 5000000)`. -/
def bufcap : Nat := 5000000

/-- The in-memory blob writer; `buffer = none` models the released
(`nil`) staging buffer after finalization. -/
structure writer where
  offset : Nat
  length : Nat
  buffer : Option Bytes
  ref : BlobRef

/-- `NewWriter(db, ref)`: zeroed 5,000,000-byte staging buffer, cursor and
length at zero. -/
def NewWriter (ref : BlobRef) : writer :=
  { offset := 0, length := 0, buffer := some (List.replicate bufcap 0), ref := ref }

/-- `(*writer).Seek(offset, whence)`: only `io.SeekStart` (`whence = 0`) is
implemented (anything else panics, modelled by `none`); moves the cursor
and extends the logical length when seeking past it. -/
def writer.Seek (w : writer) (off : Nat) (whence : Nat) : Option (Nat × writer) :=
  if whence = 0 then
    some (off, { w with offset := off, length := if w.length < off then off else w.length })
  else none

/-- `(*writer).Write(p)`: copies `p` into `buffer[offset : offset+len(p)]`,
advances the cursor, extends the logical length.  `none` models the Go
slice panic when `offset + len(p)` exceeds the buffer length (including
writes on a released `nil` buffer). -/
def writer.Write (w : writer) (p : Bytes) : Option (Nat × writer) :=
  match w.buffer with
  | some buf =>
    if w.offset + p.length ≤ buf.length then
      let off2 := w.offset + p.length
      some (p.length,
        { w with
          buffer := some (buf.take w.offset ++ p ++ buf.drop off2),
          offset := off2,
          length := if w.length < off2 then off2 else w.length })
    else none
  | none => if w.offset + p.length = 0 then some (0, w) else none

/-- Sequential `Write` calls with no intervening seeks. -/
def writeList (w : writer) : List Bytes → Option writer
  | [] => some w
  | p :: ps =>
    match w.Write p with
    | some (_, w2) => writeList w2 ps
    | none => none

/-- `(*writer).Cancel(ctx)`: releases the buffer and returns no error,
whatever state the writer is in. -/
def writer.Cancel (w : writer) : Option String × writer :=
  (none, { w with buffer := none })

/-- `(*writer).Commit(ctx)` at engine time `now`: errors when the buffer
was already released, otherwise stores `buffer[:offset]` under
`key(ref, now, offset)` in one `db.Update` transaction and releases the
buffer. -/
def writer.Commit (w : writer) (now : GoTime) (s : Store) : Except String (writer × Store) :=
  match w.buffer with
  | none => .error "Already committed"
  | some buf =>
    .ok ({ w with buffer := none }, txnSet s (key w.ref now (w.offset : Int)) (buf.take w.offset))

/-- `(*BlobStore).Delete(ctx, ref)`: one `db.Update` transaction deleting
every record the `keyPrefix(ref)` iterator yields. -/
def BlobStore.Delete (s : Store) (ref : BlobRef) : Store :=
  (scanAsc s (keyPref ref)).foldl (fun acc e => txnDelete acc e.1) s

/-- `(*BlobStore).Trash(ctx, ref, timestamp)`: one `db.Update` transaction;
for every record under `keyPrefix(ref)`, writes its value under
`trashPrefix ‖ key[5:]` and deletes the original.  The `timestamp`
argument is unused by the code. -/
def BlobStore.Trash (s : Store) (ref : BlobRef) (_timestamp : GoTime) : Store :=
  (scanAsc s (keyPref ref)).foldl
    (fun acc e => txnDelete (txnSet acc (trashPref ++ e.1.drop 5) e.2) e.1) s

/-- `(*BlobStore).move(txn, from, to)`: `Get from`, `Set to`, `Delete from`. -/
def move (s : Store) (from_ to_ : Bytes) : Except String Store :=
  match txnGet s from_ with
  | none => .error "Key not found"
  | some v => .ok (txnDelete (txnSet s to_ v) from_)

/-- Loop body of `RestoreTrash`: for each trash record, append its key to
the result and `move` it to `blobPrefix ‖ key[len(trashPrefix):]`. -/
def restoreLoop : Store → List Entry → List Bytes → List Bytes × Except String Store
  | s, [], keys => (keys, .ok s)
  | s, e :: rest, keys =>
    match move s e.1 (blobPref ++ e.1.drop 5) with
    | .error msg => (keys ++ [e.1], .error msg)
    | .ok s2 => restoreLoop s2 rest (keys ++ [e.1])

/-- `(*BlobStore).RestoreTrash(ctx, namespace)`: one `db.Update`
transaction moving every trash-partition record back to the live
partition; the `namespace` argument is unused by the code. -/
def BlobStore.RestoreTrash (s : Store) (_namespace : Bytes) : List Bytes × Except String Store :=
  restoreLoop s (scanAsc s trashPref) []

/-- Badger's error for a `Set`/`Delete` attempted inside a read-only
transaction (`db.View` provides only read-only transactions). -/
def errReadOnlyTxn : String := "No sets or deletes are allowed in a read-only transaction."

/-- Loop body of `EmptyTrash`: appends the record's key, then calls
`txn.Delete` — which fails immediately with `ErrReadOnlyTxn`, because
`EmptyTrash` runs inside `db.View`, a read-only transaction. -/
def emptyTrashLoop : List Entry → List Bytes → List Bytes × Option String
  | [], keys => (keys, none)
  | e :: _, keys => (keys ++ [e.1], some errReadOnlyTxn)

/-- `(*BlobStore).EmptyTrash(ctx, namespace, trashedBefore)`: iterates the
trash partition inside `db.View`; returns `(0, keys, err)` and — the
transaction being read-only — never changes the store.  Both arguments
are unused by the code. -/
def BlobStore.EmptyTrash (s : Store) (_namespace : Bytes) (_trashedBefore : GoTime) :
    Int × List Bytes × Option String × Store :=
  let r := emptyTrashLoop (scanAsc s trashPref) []
  (0, r.1, r.2, s)


/-! Helper lemmas about prefixes, big-endian encoding and key order. -/

theorem isPref_append (l m : Bytes) : isPref l (l ++ m) = true := by
  induction l with
  | nil => simp [isPref]
  | cons a as ih => simp [isPref, ih]

theorem isPref_iff (p l : Bytes) : isPref p l = true ↔ ∃ m, l = p ++ m := by
  induction p generalizing l with
  | nil => simp [isPref]
  | cons a as ih =>
    cases l with
    | nil => simp [isPref]
    | cons b bs =>
      simp only [isPref, Bool.and_eq_true, beq_iff_eq, ih, List.cons_append, List.cons.injEq]
      constructor
      · rintro ⟨rfl, m, rfl⟩; exact ⟨m, rfl, rfl⟩
      · rintro ⟨m, rfl, rfl⟩; exact ⟨rfl, m, rfl⟩

theorem beBytes_length (w n : Nat) : (beBytes w n).length = w := by
  induction w generalizing n with
  | zero => rfl
  | succ w ih => simp [beBytes, ih]

theorem beBytes_mod (w n : Nat) : beBytes w (n % 256 ^ w) = beBytes w n := by
  induction w generalizing n with
  | zero => rfl
  | succ w ih =>
    have hpow : (256 : Nat) ^ (w + 1) = 256 ^ w * 256 := by rw [pow_succ]
    simp only [beBytes, hpow]
    congr 1
    · rw [Nat.mod_mul_right_div_self, Nat.mod_mod_of_dvd _ (dvd_refl 256)]
    · calc beBytes w (n % (256 ^ w * 256))
          = beBytes w (n % (256 ^ w * 256) % 256 ^ w) := (ih _).symm
        _ = beBytes w (n % 256 ^ w) := by rw [Nat.mod_mod_of_dvd _ (Dvd.intro 256 rfl)]
        _ = beBytes w n := ih n

theorem beRead_aux (w n acc : Nat) :
    List.foldl (fun a b => a * 256 + b) acc (beBytes w n) = acc * 256 ^ w + n % 256 ^ w := by
  induction w generalizing acc with
  | zero => simp [beBytes, Nat.mod_one]
  | succ w ih =>
    have hpow : (256 : Nat) ^ (w + 1) = 256 ^ w * 256 := by rw [pow_succ]
    simp only [beBytes, List.foldl_cons, ih, hpow]
    rw [Nat.mod_mul]
    ring

theorem beRead_beBytes (w n : Nat) (h : n < 256 ^ w) : beRead (beBytes w n) = n := by
  unfold beRead
  rw [beRead_aux, Nat.zero_mul, Nat.zero_add, Nat.mod_eq_of_lt h]

theorem beBytes_inj (w n m : Nat) (hn : n < 256 ^ w) (hm : m < 256 ^ w)
    (h : beBytes w n = beBytes w m) : n = m := by
  have := congrArg beRead h
  rwa [beRead_beBytes w n hn, beRead_beBytes w m hm] at this

theorem lexLt_append_same (l a b : Bytes) : lexLt (l ++ a) (l ++ b) = lexLt a b := by
  induction l with
  | nil => rfl
  | cons x xs ih => simp [lexLt, ih]

theorem lexLt_append_eqLen (a b c d : Bytes) (h : a.length = b.length) :
    lexLt (a ++ c) (b ++ d) = if a = b then lexLt c d else lexLt a b := by
  induction a generalizing b with
  | nil =>
    cases b with
    | nil => simp
    | cons y ys => simp at h
  | cons x xs ih =>
    cases b with
    | nil => simp at h
    | cons y ys =>
      simp only [List.length_cons, Nat.succ.injEq] at h
      by_cases hxy : x < y
      · have hne : x ≠ y := Nat.ne_of_lt hxy
        simp [lexLt, hxy, hne]
      · by_cases hyx : y < x
        · have hne : x ≠ y := (Nat.ne_of_lt hyx).symm
          simp [lexLt, hxy, hyx, hne]
        · have hxe : x = y := Nat.le_antisymm (Nat.le_of_not_lt hyx) (Nat.le_of_not_lt hxy)
          subst hxe
          simp [lexLt, ih ys h]

theorem beBytes_lt (w n m : Nat) (hn : n < 256 ^ w) (hm : m < 256 ^ w) :
    lexLt (beBytes w n) (beBytes w m) = true ↔ n < m := by
  induction w generalizing n m with
  | zero =>
    simp only [pow_zero, Nat.lt_one_iff] at hn hm
    subst hn; subst hm
    simp [beBytes, lexLt]
  | succ w ih =>
    have hpow : (256 : Nat) ^ (w + 1) = 256 ^ w * 256 := by rw [pow_succ]
    have hposw : 0 < (256 : Nat) ^ w := Nat.pos_pow_of_pos w (by norm_num)
    rw [hpow] at hn hm
    have hdivn : n / 256 ^ w < 256 := (Nat.div_lt_iff_lt_mul hposw).mpr (by omega)
    have hdivm : m / 256 ^ w < 256 := (Nat.div_lt_iff_lt_mul hposw).mpr (by omega)
    have hn2 := Nat.div_add_mod n (256 ^ w)
    have hm2 := Nat.div_add_mod m (256 ^ w)
    have hmodn := Nat.mod_lt n (y := 256 ^ w) hposw
    have hmodm := Nat.mod_lt m (y := 256 ^ w) hposw
    simp only [beBytes, lexLt]
    by_cases hlt : n / 256 ^ w % 256 < m / 256 ^ w % 256
    · simp only [if_pos hlt, true_iff]
      rw [Nat.mod_eq_of_lt hdivn, Nat.mod_eq_of_lt hdivm] at hlt
      have hstep : 256 ^ w * (n / 256 ^ w + 1) ≤ 256 ^ w * (m / 256 ^ w) :=
        Nat.mul_le_mul_left _ hlt
      have hmle : 256 ^ w * (m / 256 ^ w) ≤ m := Nat.mul_div_le m (256 ^ w)
      calc n < 256 ^ w * (n / 256 ^ w) + 256 ^ w := by omega
        _ = 256 ^ w * (n / 256 ^ w + 1) := by ring
        _ ≤ 256 ^ w * (m / 256 ^ w) := hstep
        _ ≤ m := hmle
    · simp only [if_neg hlt]
      by_cases hgt : m / 256 ^ w % 256 < n / 256 ^ w % 256
      · simp only [if_pos hgt, Bool.false_eq_true, false_iff, not_lt]
        rw [Nat.mod_eq_of_lt hdivn, Nat.mod_eq_of_lt hdivm] at hgt
        have hstep : 256 ^ w * (m / 256 ^ w + 1) ≤ 256 ^ w * (n / 256 ^ w) :=
          Nat.mul_le_mul_left _ hgt
        have hnle : 256 ^ w * (n / 256 ^ w) ≤ n := Nat.mul_div_le n (256 ^ w)
        have : m < n := by
          calc m < 256 ^ w * (m / 256 ^ w) + 256 ^ w := by omega
            _ = 256 ^ w * (m / 256 ^ w + 1) := by ring
            _ ≤ 256 ^ w * (n / 256 ^ w) := hstep
            _ ≤ n := hnle
        exact Nat.le_of_lt this
      · have hde : n / 256 ^ w = m / 256 ^ w := by
          rw [Nat.mod_eq_of_lt hdivn, Nat.mod_eq_of_lt hdivm] at hlt hgt
          omega
        simp only [if_neg hgt]
        rw [← beBytes_mod w n, ← beBytes_mod w m,
          ih _ _ (Nat.mod_lt n hposw) (Nat.mod_lt m hposw)]
        rw [hde] at hn2
        omega

/-! Helper lemmas about the store model: iteration, set, delete. -/

theorem mem_insertEntry (a e : Entry) (l : List Entry) :
    a ∈ insertEntry e l ↔ a = e ∨ a ∈ l := by
  induction l with
  | nil => simp [insertEntry]
  | cons f fs ih =>
    by_cases h : lexLt f.1 e.1
    · simp only [insertEntry, if_pos h, List.mem_cons, ih]
      tauto
    · simp only [insertEntry, if_neg h, List.mem_cons]

theorem mem_sortByKey (a : Entry) (s : List Entry) : a ∈ sortByKey s ↔ a ∈ s := by
  induction s with
  | nil => simp [sortByKey]
  | cons e es ih =>
    simp only [sortByKey, List.foldr_cons] at ih ⊢
    rw [mem_insertEntry, ih, List.mem_cons]

theorem mem_scanAsc (a : Entry) (s : Store) (p : Bytes) :
    a ∈ scanAsc s p ↔ a ∈ s ∧ isPref p a.1 = true := by
  rw [scanAsc, mem_sortByKey, List.mem_filter]

theorem scanAsc_nil (s : Store) (p : Bytes) (h : ∀ e ∈ s, isPref p e.1 = false) :
    scanAsc s p = [] := by
  have : s.filter (fun e => isPref p e.1) = [] := by
    rw [List.filter_eq_nil_iff]
    intro e he
    simp [h e he]
  rw [scanAsc, this]
  rfl

theorem scanAsc_single (s : Store) (p k v : Bytes) (h : ∀ e ∈ s, isPref p e.1 = false)
    (hk : isPref p k = true) : scanAsc (s ++ [(k, v)]) p = [(k, v)] := by
  have h1 : s.filter (fun e => isPref p e.1) = [] := by
    rw [List.filter_eq_nil_iff]
    intro e he
    simp [h e he]
  rw [scanAsc, List.filter_append, h1]
  simp only [List.nil_append, List.filter_cons, hk]
  rfl

theorem txnSet_fresh (s : Store) (k v : Bytes) (h : ∀ e ∈ s, e.1 ≠ k) :
    txnSet s k v = s ++ [(k, v)] := by
  have : s.any (fun e => e.1 == k) = false := by
    rw [List.any_eq_false]
    intro e he
    simp [h e he]
  rw [txnSet, this]
  simp

theorem foldl_txnDelete (ks : List Bytes) (s : Store) :
    List.foldl txnDelete s ks = s.filter (fun e => !(ks.any (fun x => e.1 == x))) := by
  induction ks generalizing s with
  | nil => simp
  | cons k ks ih =>
    simp only [List.foldl_cons, ih, txnDelete, List.filter_filter]
    apply List.filter_congr
    intro e _
    simp only [List.any_cons, Bool.not_or, Bool.and_comm]

theorem delete_eq_filter (s : Store) (ref : BlobRef) :
    BlobStore.Delete s ref = s.filter (fun e => !(isPref (keyPref ref) e.1)) := by
  unfold BlobStore.Delete
  have h1 : (scanAsc s (keyPref ref)).foldl (fun acc e => txnDelete acc e.1) s
      = List.foldl txnDelete s ((scanAsc s (keyPref ref)).map (fun e => e.1)) := by
    rw [List.foldl_map]
  rw [h1, foldl_txnDelete]
  apply List.filter_congr
  intro e he
  by_cases hp : isPref (keyPref ref) e.1 = true
  · have : ((scanAsc s (keyPref ref)).map (fun e => e.1)).any (fun x => e.1 == x) = true := by
      rw [List.any_eq_true]
      refine ⟨e.1, List.mem_map_of_mem _ ?_, by simp⟩
      rw [mem_scanAsc]
      exact ⟨he, hp⟩
    rw [this, hp]
  · have hp' : isPref (keyPref ref) e.1 = false := by
      simpa using hp
    have : ((scanAsc s (keyPref ref)).map (fun e => e.1)).any (fun x => e.1 == x) = false := by
      rw [List.any_eq_false]
      intro x hx
      rw [List.mem_map] at hx
      obtain ⟨f, hf, rfl⟩ := hx
      rw [mem_scanAsc] at hf
      simp only [beq_iff_eq]
      intro hcontra
      rw [hcontra] at hp'
      rw [hf.2] at hp'
      simp at hp'
    rw [this, hp']
/-! Helper lemmas about the writer's staging buffer and the reader loop. -/

theorem take_append_len (A B : Bytes) (n : Nat) (h : A.length = n) : (A ++ B).take n = A :=
  List.take_left' h

theorem drop_append_len (A B : Bytes) (n m : Nat) (h : A.length = n) :
    (A ++ B).drop (n + m) = B.drop m := by
  rw [← h]
  exact List.drop_append m

theorem writeList_spec (cs : List Bytes) (w : writer) (buf : Bytes)
    (hbuf : w.buffer = some buf) (hol : w.offset ≤ w.length)
    (hfit : w.offset + cs.flatten.length ≤ buf.length) :
    ∃ w2, writeList w cs = some w2 ∧
      w2.offset = w.offset + cs.flatten.length ∧
      w2.length = max w.length w2.offset ∧
      w2.buffer = some (buf.take w.offset ++ cs.flatten ++ buf.drop (w.offset + cs.flatten.length)) ∧
      w2.ref = w.ref := by
  induction cs generalizing w buf with
  | nil =>
    refine ⟨w, rfl, by simp, by omega, ?_, rfl⟩
    rw [hbuf]
    simp [List.take_append_drop]
  | cons p ps ih =>
    have hflat : (p :: ps).flatten.length = p.length + ps.flatten.length := by
      simp [List.flatten_cons]
    rw [hflat] at hfit
    have hfit1 : w.offset + p.length ≤ buf.length := by omega
    have hwrite : w.Write p = some (p.length,
        { w with
          buffer := some (buf.take w.offset ++ p ++ buf.drop (w.offset + p.length)),
          offset := w.offset + p.length,
          length := if w.length < w.offset + p.length then w.offset + p.length else w.length }) := by
      rw [writer.Write, hbuf]
      simp only [if_pos hfit1]
    set buf1 : Bytes := buf.take w.offset ++ p ++ buf.drop (w.offset + p.length) with hb1
    set w1 : writer :=
      { w with
        buffer := some buf1,
        offset := w.offset + p.length,
        length := if w.length < w.offset + p.length then w.offset + p.length else w.length }
      with hw1
    have hto : (buf.take w.offset).length = w.offset := by
      rw [List.length_take]
      omega
    have hAlen : (buf.take w.offset ++ p).length = w.offset + p.length := by
      simp [hto]
    have hbuf1len : buf1.length = buf.length := by
      rw [hb1]
      simp only [List.length_append, hto, List.length_drop]
      omega
    have hw1off : w1.offset = w.offset + p.length := rfl
    have hw1len : w1.offset ≤ w1.length := by
      show w.offset + p.length ≤ if w.length < w.offset + p.length then w.offset + p.length else w.length
      split_ifs <;> omega
    have hfit2 : w1.offset + ps.flatten.length ≤ buf1.length := by
      rw [hbuf1len, hw1off]
      omega
    obtain ⟨w2, hrun, hoff, hlen, hbuf2, href⟩ := ih w1 buf1 rfl hw1len hfit2
    have htake : buf1.take w1.offset = buf.take w.offset ++ p := by
      rw [hb1, hw1off]
      exact take_append_len _ _ _ hAlen
    have hdrop : buf1.drop (w1.offset + ps.flatten.length)
        = buf.drop (w.offset + p.length + ps.flatten.length) := by
      rw [hb1, hw1off, drop_append_len _ _ _ _ hAlen, List.drop_drop]
    refine ⟨w2, ?_, ?_, ?_, ?_, by rw [href]⟩
    · rw [writeList, hwrite]
      exact hrun
    · rw [hoff, hw1off, hflat]
      omega
    · rw [hlen, hoff, hw1off]
      have hl1 : w1.length = if w.length < w.offset + p.length then w.offset + p.length else w.length := rfl
      rw [hl1]
      split_ifs <;> omega
    · rw [hbuf2, htake, hdrop, hflat]
      simp [List.flatten_cons, List.append_assoc, Nat.add_assoc]

theorem readToEnd_spec (fuel : Nat) (r : Reader) (plen : Nat)
    (hlen : r.length = r.buffer.length) (hfuel : r.length - r.offset < fuel) (hp : 1 ≤ plen) :
    readToEnd fuel r plen = r.buffer.drop r.offset := by
  induction fuel generalizing r with
  | zero => omega
  | succ fuel ih =>
    by_cases heof : r.length ≤ r.offset
    · have hread : r.Read plen = none := by
        rw [Reader.Read, if_pos heof]
      rw [readToEnd, hread, List.drop_eq_nil_of_le (by omega)]
    · have hread : r.Read plen = some ((r.buffer.drop r.offset).take (min plen (r.buffer.length - r.offset)),
          { r with offset := r.offset + min plen (r.buffer.length - r.offset) }) := by
        rw [Reader.Read, if_neg heof]
      rw [readToEnd, hread]
      set n := min plen (r.buffer.length - r.offset) with hn
      have hnpos : 1 ≤ n := by
        rw [hn]
        omega
      show (r.buffer.drop r.offset).take n ++ readToEnd fuel { r with offset := r.offset + n } plen
          = r.buffer.drop r.offset
      rw [ih { r with offset := r.offset + n } hlen (by simp; omega)]
      show (r.buffer.drop r.offset).take n ++ r.buffer.drop (r.offset + n) = r.buffer.drop r.offset
      have hdd : r.buffer.drop (r.offset + n) = (r.buffer.drop r.offset).drop n :=
        (List.drop_drop n r.offset r.buffer).symm
      rw [hdd, List.take_append_drop]

theorem readAll_spec (r : Reader) (hlen : r.length = r.buffer.length) :
    readAll r = r.buffer.drop r.offset := by
  rw [readAll, readToEnd_spec r.length.succ r 1 hlen (by omega) (by omega)]

/-! Small step equations used to run concrete scenarios. -/

theorem blobPref_eq : blobPref = [98, 108, 111, 98, 115] := by decide

theorem trashPref_eq : trashPref = [116, 114, 97, 115, 104] := by decide

theorem namespacePref_eq : namespacePref = [110, 109, 115, 112, 99] := by decide

theorem commit_step (w : writer) (buf : Bytes) (t : GoTime) (s : Store)
    (hbuf : w.buffer = some buf) :
    w.Commit t s
      = .ok ({ w with buffer := none }, txnSet s (key w.ref t (w.offset : Int)) (buf.take w.offset)) := by
  rw [writer.Commit, hbuf]

theorem isPref_keyPref (ref : BlobRef) (t : GoTime) (s : Int) :
    isPref (keyPref ref) (key ref t s) = true := by
  have h : key ref t s = keyPref ref ++ (beBytes 8 (uint64Of t.sec) ++ beBytes 8 (uint64Of s)) := by
    simp [key, keyPref, List.append_assoc]
  rw [h]
  exact isPref_append _ _

theorem ne_key_of_not_pref (ref : BlobRef) (t : GoTime) (sz : Int) (x : Bytes)
    (h : isPref (keyPref ref) x = false) : x ≠ key ref t sz := by
  intro he
  rw [he, isPref_keyPref] at h
  simp at h

theorem NewReader_fresh (s : Store) (ref : BlobRef) (k v : Bytes)
    (hfresh : ∀ e ∈ s, isPref (keyPref ref) e.1 = false) (hk : isPref (keyPref ref) k = true) :
    NewReader (s ++ [(k, v)]) ref = .ok { offset := 0, length := v.length, buffer := v } := by
  unfold NewReader
  rw [scanAsc_single s (keyPref ref) k v hfresh hk]

theorem NewReader_none (s : Store) (ref : BlobRef)
    (h : ∀ e ∈ s, isPref (keyPref ref) e.1 = false) :
    NewReader s ref = .error "missing blob" := by
  unfold NewReader
  rw [scanAsc_nil s _ h]

theorem two64i : (2 : Int) ^ 64 = 18446744073709551616 := by norm_num

theorem two64n : (2 : Nat) ^ 64 = 18446744073709551616 := by norm_num

theorem pow2568 : (256 : Nat) ^ 8 = 18446744073709551616 := by norm_num

theorem uint64Of_lt (x : Int) : uint64Of x < 2 ^ 64 := by
  unfold uint64Of
  rw [two64n]
  have h := two64i
  omega

theorem uint64Of_cast (x : Int) (h1 : 0 ≤ x) (h2 : x < 2 ^ 64) : (uint64Of x : Int) = x := by
  unfold uint64Of
  rw [two64i] at h2
  omega

theorem int64Of_uint64Of (x : Int) (h1 : -(2 ^ 63) ≤ x) (h2 : x < 2 ^ 63) :
    int64Of (uint64Of x) = x := by
  unfold int64Of uint64Of
  have e63 : (2 : Nat) ^ 63 = 9223372036854775808 := by norm_num
  have e63i : (2 : Int) ^ 63 = 9223372036854775808 := by norm_num
  have e64i := two64i
  rw [e63, e63i] at *
  split_ifs <;> omega

/-- C7: decoding the suffix of an encoded key returns exactly the
(second-granularity) time and the size: for every reference, every time
of whole-second granularity in the signed 64-bit range and every
non-negative size below `2 ^ 63`,
`stat (key ref t size) = (t, size)`. -/
theorem stat_key_roundtrip (r : BlobRef) (t : GoTime) (size : Int)
    (hnsec : t.nsec = 0) (ht1 : -(2 ^ 63) ≤ t.sec) (ht2 : t.sec < 2 ^ 63)
    (hs1 : 0 ≤ size) (hs2 : size < 2 ^ 63) :
    stat (key r t size) = (t, size) := by
  have hkey : key r t size
      = keyPref r ++ (beBytes 8 (uint64Of t.sec) ++ beBytes 8 (uint64Of size)) := by
    simp [key, keyPref, List.append_assoc]
  have hXlen : (beBytes 8 (uint64Of t.sec)).length = 8 := beBytes_length 8 _
  have hYlen : (beBytes 8 (uint64Of size)).length = 8 := beBytes_length 8 _
  have hsuflen : (beBytes 8 (uint64Of t.sec) ++ beBytes 8 (uint64Of size)).length = 16 := by
    rw [List.length_append, hXlen, hYlen]
  have hlen : (keyPref r ++ (beBytes 8 (uint64Of t.sec) ++ beBytes 8 (uint64Of size))).length
      = (keyPref r).length + 16 := by
    rw [List.length_append, hsuflen]
  unfold stat
  rw [hkey, hlen]
  have hdrop : (keyPref r).length + 16 - 16 = (keyPref r).length := by omega
  rw [hdrop, List.drop_left]
  simp only [take_append_len _ _ 8 hXlen, List.drop_left' hXlen]
  have hbound : uint64Of t.sec < 256 ^ 8 := by
    rw [pow2568, ← two64n]
    exact uint64Of_lt t.sec
  have hbound2 : uint64Of size < 256 ^ 8 := by
    rw [pow2568, ← two64n]
    exact uint64Of_lt size
  rw [beRead_beBytes 8 _ hbound, beRead_beBytes 8 _ hbound2]
  rw [int64Of_uint64Of t.sec ht1 ht2, int64Of_uint64Of size (by omega) (by omega)]
  unfold timeUnixSec
  cases t with
  | mk sec nsec =>
    simp only at hnsec
    rw [hnsec]

theorem stat_key_roundtrip_witness :
    (⟨byteStr "ns", byteStr "key1"⟩ : BlobRef).Namespace = byteStr "ns" ∧
    stat (key ⟨byteStr "ns", byteStr "key1"⟩ ⟨1234, 0⟩ 42) = (⟨1234, 0⟩, 42) :=
  ⟨rfl, stat_key_roundtrip ⟨byteStr "ns", byteStr "key1"⟩ ⟨1234, 0⟩ 42 rfl (by decide)
    (by decide) (by decide) (by decide)⟩

/-- C6 counterexample: `key` is not injective across distinct references —
the namespace/key boundary is not encoded, so `(ns = "a", key = "b")` and
`(ns = "ab", key = "")` collide at equal time and size. -/
theorem key_collision_distinct_refs :
    key ⟨byteStr "a", byteStr "b"⟩ ⟨0, 0⟩ 0 = key ⟨byteStr "ab", byteStr ""⟩ ⟨0, 0⟩ 0 ∧
    (⟨byteStr "a", byteStr "b"⟩ : BlobRef) ≠ ⟨byteStr "ab", byteStr ""⟩ := by
  constructor
  · decide
  · decide

theorem keyPref_of_cat (r₁ r₂ : BlobRef)
    (hcat : r₁.Namespace ++ r₁.Key = r₂.Namespace ++ r₂.Key) : keyPref r₁ = keyPref r₂ := by
  unfold keyPref
  rw [List.append_assoc, List.append_assoc, hcat]

/-- C6 amended: `key` is deterministic and injective in the time and size
for triples whose `namespace ‖ key` concatenations agree (in particular
for a fixed reference); two such triples with 64-bit times and sizes
encode the same key exactly when their second-truncated times and sizes
agree, and the lexicographic order of their keys is the
time-then-size-ascending order.  Injectivity fails across distinct
references whose concatenations coincide. -/
theorem key_inj_and_order (r₁ r₂ : BlobRef) (t₁ t₂ : GoTime) (s₁ s₂ : Int)
    (hcat : r₁.Namespace ++ r₁.Key = r₂.Namespace ++ r₂.Key)
    (ht1 : 0 ≤ t₁.sec) (ht1b : t₁.sec < 2 ^ 64) (ht2 : 0 ≤ t₂.sec) (ht2b : t₂.sec < 2 ^ 64)
    (hs1 : 0 ≤ s₁) (hs1b : s₁ < 2 ^ 64) (hs2 : 0 ≤ s₂) (hs2b : s₂ < 2 ^ 64) :
    (key r₁ t₁ s₁ = key r₂ t₂ s₂ ↔ (t₁.sec = t₂.sec ∧ s₁ = s₂)) ∧
    (lexLt (key r₁ t₁ s₁) (key r₂ t₂ s₂) = true ↔
      (t₁.sec < t₂.sec ∨ (t₁.sec = t₂.sec ∧ s₁ < s₂))) := by
  have hkp := keyPref_of_cat r₁ r₂ hcat
  have hk1 : key r₁ t₁ s₁
      = keyPref r₂ ++ beBytes 8 (uint64Of t₁.sec) ++ beBytes 8 (uint64Of s₁) := by
    simp [key, keyPref, List.append_assoc] at hkp ⊢
    rw [← List.append_assoc, ← List.append_assoc, hkp]
    simp [List.append_assoc]
  have hk2 : key r₂ t₂ s₂
      = keyPref r₂ ++ beBytes 8 (uint64Of t₂.sec) ++ beBytes 8 (uint64Of s₂) := by
    simp [key, keyPref, List.append_assoc]
  have hX1 : (beBytes 8 (uint64Of t₁.sec)).length = 8 := beBytes_length 8 _
  have hX2 : (beBytes 8 (uint64Of t₂.sec)).length = 8 := beBytes_length 8 _
  have hb : ∀ x : Int, uint64Of x < 256 ^ 8 := by
    intro x
    rw [pow2568, ← two64n]
    exact uint64Of_lt x
  have hcast : ∀ x : Int, 0 ≤ x → x < 2 ^ 64 → (uint64Of x : Int) = x := fun x h1 h2 =>
    uint64Of_cast x h1 h2
  have ht1c := hcast t₁.sec ht1 ht1b
  have ht2c := hcast t₂.sec ht2 ht2b
  have hs1c := hcast s₁ hs1 hs1b
  have hs2c := hcast s₂ hs2 hs2b
  constructor
  · rw [hk1, hk2]
    constructor
    · intro h
      rw [List.append_assoc, List.append_assoc] at h
      have h2 := List.append_cancel_left h
      obtain ⟨hX, hY⟩ := List.append_inj h2 (by rw [hX1, hX2])
      have hts : uint64Of t₁.sec = uint64Of t₂.sec := beBytes_inj 8 _ _ (hb _) (hb _) hX
      have hss : uint64Of s₁ = uint64Of s₂ := beBytes_inj 8 _ _ (hb _) (hb _) hY
      constructor
      · have := congrArg (fun n : Nat => (n : Int)) hts
        simpa [ht1c, ht2c] using this
      · have := congrArg (fun n : Nat => (n : Int)) hss
        simpa [hs1c, hs2c] using this
    · rintro ⟨hts, hss⟩
      rw [hts, hss]
  · rw [hk1, hk2, List.append_assoc, List.append_assoc, lexLt_append_same,
      lexLt_append_eqLen _ _ _ _ (by rw [hX1, hX2])]
    by_cases hX : beBytes 8 (uint64Of t₁.sec) = beBytes 8 (uint64Of t₂.sec)
    · have hts : uint64Of t₁.sec = uint64Of t₂.sec := beBytes_inj 8 _ _ (hb _) (hb _) hX
      have htsec : t₁.sec = t₂.sec := by
        have := congrArg (fun n : Nat => (n : Int)) hts
        simpa [ht1c, ht2c] using this
      rw [if_pos hX, beBytes_lt 8 _ _ (hb _) (hb _)]
      constructor
      · intro h
        right
        refine ⟨htsec, ?_⟩
        have : (uint64Of s₁ : Int) < (uint64Of s₂ : Int) := by exact_mod_cast h
        rwa [hs1c, hs2c] at this
      · rintro (h | ⟨-, h⟩)
        · omega
        · have : (uint64Of s₁ : Int) < (uint64Of s₂ : Int) := by
            rw [hs1c, hs2c]
            exact h
          exact_mod_cast this
    · have hts : uint64Of t₁.sec ≠ uint64Of t₂.sec := fun h => hX (by rw [h])
      have htsec : t₁.sec ≠ t₂.sec := by
        intro h
        apply hts
        have hc : (uint64Of t₁.sec : Int) = (uint64Of t₂.sec : Int) := by
          rw [ht1c, ht2c, h]
        exact_mod_cast hc
      rw [if_neg hX, beBytes_lt 8 _ _ (hb _) (hb _)]
      constructor
      · intro h
        left
        have : (uint64Of t₁.sec : Int) < (uint64Of t₂.sec : Int) := by exact_mod_cast h
        rwa [ht1c, ht2c] at this
      · rintro (h | ⟨he, -⟩)
        · have : (uint64Of t₁.sec : Int) < (uint64Of t₂.sec : Int) := by
            rw [ht1c, ht2c]
            exact h
          exact_mod_cast this
        · exact absurd he htsec

theorem key_inj_and_order_witness :
    (byteStr "ns" ++ byteStr "k" : Bytes) = byteStr "ns" ++ byteStr "k" ∧
    ((key ⟨byteStr "ns", byteStr "k"⟩ ⟨5, 0⟩ 3 = key ⟨byteStr "ns", byteStr "k"⟩ ⟨7, 0⟩ 3 ↔
        ((5 : Int) = 7 ∧ (3 : Int) = 3)) ∧
      (lexLt (key ⟨byteStr "ns", byteStr "k"⟩ ⟨5, 0⟩ 3) (key ⟨byteStr "ns", byteStr "k"⟩ ⟨7, 0⟩ 3)
          = true ↔ ((5 : Int) < 7 ∨ ((5 : Int) = 7 ∧ (3 : Int) < 3)))) :=
  ⟨rfl, key_inj_and_order ⟨byteStr "ns", byteStr "k"⟩ ⟨byteStr "ns", byteStr "k"⟩ ⟨5, 0⟩ ⟨7, 0⟩ 3 3
    rfl (by decide) (by decide) (by decide) (by decide) (by decide) (by decide) (by decide)
    (by decide)⟩

/-- C1: writing a payload of at most 5,000,000 bytes to a fresh blob
reference — as one write or as several sequential writes with no
intervening seeks — then committing, opening the reference and reading
to end of stream yields exactly the written bytes. -/
theorem write_read_identity (ref : BlobRef) (s : Store) (chunks : List Bytes) (B : Bytes)
    (t : GoTime) (hB : chunks.flatten = B) (hlen : B.length ≤ bufcap)
    (hfresh : ∀ e ∈ s, isPref (keyPref ref) e.1 = false) :
    ∃ w2 s2 r,
      writeList (NewWriter ref) chunks = some w2 ∧
      w2.Commit t s = .ok ({ w2 with buffer := none }, s2) ∧
      NewReader s2 ref = .ok r ∧
      readAll r = B := by
  subst hB
  have hfit : (NewWriter ref).offset + chunks.flatten.length ≤ (List.replicate bufcap 0).length := by
    rw [List.length_replicate]
    simpa [NewWriter] using hlen
  obtain ⟨w2, hrun, hoff, hlenw, hbuf, href⟩ :=
    writeList_spec chunks (NewWriter ref) (List.replicate bufcap 0) rfl (by simp [NewWriter]) hfit
  have hoff' : w2.offset = chunks.flatten.length := by
    simpa [NewWriter] using hoff
  have hbuf' : w2.buffer
      = some (chunks.flatten ++ (List.replicate bufcap 0).drop chunks.flatten.length) := by
    rw [hbuf]
    simp [NewWriter]
  have href' : w2.ref = ref := by
    simpa [NewWriter] using href
  have hval : (chunks.flatten ++ (List.replicate bufcap 0).drop chunks.flatten.length).take w2.offset
      = chunks.flatten := by
    rw [hoff']
    exact take_append_len _ _ _ rfl
  have hset : txnSet s (key ref t (chunks.flatten.length : Int)) chunks.flatten
      = s ++ [(key ref t (chunks.flatten.length : Int), chunks.flatten)] := by
    apply txnSet_fresh
    intro e he
    exact ne_key_of_not_pref ref t _ e.1 (hfresh e he)
  refine ⟨w2, s ++ [(key ref t (chunks.flatten.length : Int), chunks.flatten)],
    ⟨0, chunks.flatten.length, chunks.flatten⟩, hrun, ?_, ?_, ?_⟩
  · rw [commit_step w2 _ t s hbuf', hval, href', hoff', hset]
  · exact NewReader_fresh s ref _ chunks.flatten hfresh (isPref_keyPref ref t _)
  · rw [readAll_spec _ rfl]
    simp

theorem write_read_identity_witness :
    (List.replicate 10 (byteStr "test")).flatten
        = byteStr "testtesttesttesttesttesttesttesttesttest" ∧
    (byteStr "testtesttesttesttesttesttesttesttesttest").length ≤ bufcap ∧
    (∀ e ∈ ([((namespacePref ++ byteStr "ns" : Bytes), ([1] : Bytes))] : Store),
      isPref (keyPref ⟨byteStr "ns", byteStr "key1"⟩) e.1 = false) ∧
    ∃ w2 s2 r,
      writeList (NewWriter ⟨byteStr "ns", byteStr "key1"⟩) (List.replicate 10 (byteStr "test"))
          = some w2 ∧
      w2.Commit ⟨1234, 0⟩ [((namespacePref ++ byteStr "ns" : Bytes), ([1] : Bytes))]
          = .ok ({ w2 with buffer := none }, s2) ∧
      NewReader s2 ⟨byteStr "ns", byteStr "key1"⟩ = .ok r ∧
      readAll r = byteStr "testtesttesttesttesttesttesttesttesttest" :=
  ⟨by decide, by decide, by decide,
    write_read_identity ⟨byteStr "ns", byteStr "key1"⟩
      [((namespacePref ++ byteStr "ns" : Bytes), ([1] : Bytes))]
      (List.replicate 10 (byteStr "test"))
      (byteStr "testtesttesttesttesttesttesttesttesttest") ⟨1234, 0⟩
      (by decide) (by decide) (by decide)⟩

theorem seek_commit_step (w : writer) (buf : Bytes) (o : Nat) (t : GoTime) (s : Store)
    (hbuf : w.buffer = some buf) :
    ∃ w2, w.Seek o 0 = some (o, w2) ∧ w2.ref = w.ref ∧ w2.length = max w.length o ∧
      w2.Commit t s
        = .ok ({ w2 with buffer := none }, txnSet s (key w.ref t (o : Int)) (buf.take o)) := by
  refine ⟨{ w with offset := o, length := if w.length < o then o else w.length }, rfl, rfl, ?_, ?_⟩
  · show (if w.length < o then o else w.length) = max w.length o
    split_ifs <;> omega
  · exact commit_step _ buf t s hbuf

/-- C2 counterexample: the persisted payload is determined by the cursor
position at commit time, not by the logical length — after writing ten
bytes and seeking back to offset 0, commit persists the empty payload,
and opening the reference reads back zero bytes instead of the ten
written ones. -/
theorem commit_cursor_counterexample :
    ∃ w1 w2 s2 r,
      writeList (NewWriter ⟨byteStr "ns", byteStr "key1"⟩) [byteStr "1234567890"] = some w1 ∧
      w1.Seek 0 0 = some (0, w2) ∧
      w2.Commit ⟨0, 0⟩ [] = .ok ({ w2 with buffer := none }, s2) ∧
      NewReader s2 ⟨byteStr "ns", byteStr "key1"⟩ = .ok r ∧
      readAll r = [] ∧
      readAll r ≠ byteStr "1234567890" := by
  obtain ⟨w1, hrun, hoff, hlenw, hbuf, href⟩ :=
    writeList_spec [byteStr "1234567890"] (NewWriter ⟨byteStr "ns", byteStr "key1"⟩)
      (List.replicate bufcap 0) rfl (by simp [NewWriter])
      (by rw [List.length_replicate]; decide)
  obtain ⟨w2, hseek, -, -, hcommit⟩ := seek_commit_step w1 _ 0 ⟨0, 0⟩ [] hbuf
  rw [href] at hcommit
  refine ⟨w1, w2, _, ⟨0, 0, []⟩, hrun, hseek, hcommit, ?_, ?_, ?_⟩
  · rfl
  · rfl
  · decide

/-- C2 amended: a successful commit encodes the record key from the blob
reference, the commit time and the writer's CURSOR OFFSET (not the
logical length), and stores exactly `buffer[0:offset]` as the value of
one engine `Set` in one transaction; the store is touched only at
commit.  In particular, writing a payload and seeking back to offset `o`
persists only the first `o` bytes. -/
theorem commit_persists_cursor (ref : BlobRef) (s : Store) (chunks : List Bytes) (o : Nat)
    (t : GoTime) (hlen : chunks.flatten.length ≤ bufcap) (ho : o ≤ chunks.flatten.length)
    (hfresh : ∀ e ∈ s, isPref (keyPref ref) e.1 = false) :
    ∃ w2 w3,
      writeList (NewWriter ref) chunks = some w2 ∧
      w2.Seek o 0 = some (o, w3) ∧
      w3.Commit t s = .ok ({ w3 with buffer := none },
        s ++ [(key ref t (o : Int), chunks.flatten.take o)]) := by
  obtain ⟨w2, hrun, hoff, hlenw, hbuf, href⟩ :=
    writeList_spec chunks (NewWriter ref) (List.replicate bufcap 0) rfl (by simp [NewWriter])
      (by rw [List.length_replicate]; simpa [NewWriter] using hlen)
  obtain ⟨w3, hseek, -, -, hcommit⟩ := seek_commit_step w2 _ o t s hbuf
  rw [href, show (NewWriter ref).ref = ref from rfl] at hcommit
  have hval : (List.take (NewWriter ref).offset (List.replicate bufcap 0) ++ chunks.flatten ++
      List.drop ((NewWriter ref).offset + chunks.flatten.length) (List.replicate bufcap 0)).take o
      = chunks.flatten.take o := by
    rw [show (NewWriter ref).offset = 0 from rfl]
    simp only [List.take_zero, List.nil_append]
    rw [List.take_append_of_le_length ho]
  rw [hval] at hcommit
  rw [txnSet_fresh s _ _ (fun e he => ne_key_of_not_pref ref t _ e.1 (hfresh e he))] at hcommit
  exact ⟨w2, w3, hrun, hseek, hcommit⟩

theorem commit_persists_cursor_witness :
    ([byteStr "1234567890"] : List Bytes).flatten.length ≤ bufcap ∧
    0 ≤ ([byteStr "1234567890"] : List Bytes).flatten.length ∧
    (∀ e ∈ ([] : Store), isPref (keyPref ⟨byteStr "ns", byteStr "key1"⟩) e.1 = false) ∧
    ∃ w2 w3,
      writeList (NewWriter ⟨byteStr "ns", byteStr "key1"⟩) [byteStr "1234567890"] = some w2 ∧
      w2.Seek 0 0 = some (0, w3) ∧
      w3.Commit ⟨0, 0⟩ [] = .ok ({ w3 with buffer := none },
        [] ++ [(key ⟨byteStr "ns", byteStr "key1"⟩ ⟨0, 0⟩ ((0 : Nat) : Int),
          ([byteStr "1234567890"] : List Bytes).flatten.take 0)]) :=
  ⟨by decide, by decide, by decide,
    commit_persists_cursor ⟨byteStr "ns", byteStr "key1"⟩ [] [byteStr "1234567890"] 0 ⟨0, 0⟩
      (by decide) (by decide) (by decide)⟩

/-- C9 counterexample: double finalization through `Cancel` is silent —
after a successful `Commit`, calling `Cancel` returns no error instead
of the reported error the claim requires. -/
theorem cancel_after_commit_silent :
    ∃ w1 s1, (NewWriter ⟨byteStr "ns", byteStr "key1"⟩).Commit ⟨0, 0⟩ [] = .ok (w1, s1) ∧
      w1.Cancel.1 = none := by
  exact ⟨_, _, rfl, rfl⟩

/-- C9 amended: on a finalized writer (staging buffer released by a prior
commit or cancel), a subsequent `Commit` fails with the
already-finalized error, but a subsequent `Cancel` silently succeeds —
it returns no error and leaves the buffer released. -/
theorem finalized_commit_errors (w : writer) (t : GoTime) (s : Store) (h : w.buffer = none) :
    w.Commit t s = .error "Already committed" ∧
    w.Cancel.1 = none ∧ w.Cancel.2.buffer = none := by
  refine ⟨?_, rfl, rfl⟩
  rw [writer.Commit, h]

theorem finalized_commit_errors_witness :
    ((NewWriter ⟨byteStr "ns", byteStr "key1"⟩).Cancel.2.buffer = none) ∧
    ((NewWriter ⟨byteStr "ns", byteStr "key1"⟩).Cancel.2.Commit ⟨0, 0⟩ []
        = .error "Already committed" ∧
      (NewWriter ⟨byteStr "ns", byteStr "key1"⟩).Cancel.2.Cancel.1 = none ∧
      (NewWriter ⟨byteStr "ns", byteStr "key1"⟩).Cancel.2.Cancel.2.buffer = none) :=
  ⟨rfl, finalized_commit_errors (NewWriter ⟨byteStr "ns", byteStr "key1"⟩).Cancel.2 ⟨0, 0⟩ [] rfl⟩

/-- C5: `EmptyTrash` runs its deletions inside `db.View`, a read-only
transaction, so on a store holding a trash record it fails with
badger's read-only-transaction error after collecting the first key,
and deletes nothing — the store is returned unchanged. -/
theorem emptyTrash_readonly_bug :
    BlobStore.EmptyTrash
        [((namespacePref ++ byteStr "ns" : Bytes), ([1] : Bytes)),
          ((trashPref ++ byteStr "ns" ++ byteStr "key1" ++ beBytes 8 0 ++ beBytes 8 4 : Bytes),
            byteStr "test")]
        (byteStr "ns") ⟨99, 0⟩
      = (0, [trashPref ++ byteStr "ns" ++ byteStr "key1" ++ beBytes 8 0 ++ beBytes 8 4],
          some errReadOnlyTxn,
          [((namespacePref ++ byteStr "ns" : Bytes), ([1] : Bytes)),
            ((trashPref ++ byteStr "ns" ++ byteStr "key1" ++ beBytes 8 0 ++ beBytes 8 4 : Bytes),
              byteStr "test")]) := by
  decide

/-- C10: `ReadAt` is not side-effect-free — for any offset within the
buffered content it copies `min plen (length - off)` bytes and advances
the reader's sequential cursor by that count, so a subsequent
sequential `Read` resumes from the previous cursor position plus the
copied count. -/
theorem readAt_advances_cursor (r : Reader) (plen off : Nat) (hoff : off ≤ r.buffer.length) :
    ∃ n bs r2, r.ReadAt plen off = some (n, bs, r2) ∧
      n = min plen (r.buffer.length - off) ∧
      r2.offset = r.offset + n ∧
      r2.buffer = r.buffer ∧ r2.length = r.length ∧
      (∀ plen2, r2.Read plen2 = Reader.Read { r with offset := r.offset + n } plen2) := by
  refine ⟨min plen (r.buffer.length - off),
    (r.buffer.drop off).take (min plen (r.buffer.length - off)),
    { r with offset := r.offset + min plen (r.buffer.length - off) },
    ?_, rfl, rfl, rfl, rfl, fun _ => rfl⟩
  rw [Reader.ReadAt, if_pos hoff]

theorem readAt_advances_cursor_witness :
    (1 ≤ (byteStr "hello").length) ∧
    ∃ n bs r2, Reader.ReadAt ⟨2, 5, byteStr "hello"⟩ 2 1 = some (n, bs, r2) ∧
      n = min 2 ((byteStr "hello").length - 1) ∧
      r2.offset = 2 + n ∧
      r2.buffer = byteStr "hello" ∧ r2.length = 5 ∧
      (∀ plen2, r2.Read plen2
        = Reader.Read { (⟨2, 5, byteStr "hello"⟩ : Reader) with offset := 2 + n } plen2) :=
  ⟨by decide, readAt_advances_cursor ⟨2, 5, byteStr "hello"⟩ 2 1 (by decide)⟩

/-- C3: `Delete` removes, in one transaction, exactly the stored records
whose key matches `keyPrefix(ref)` — all historical versions — after
which `Open` on the reference fails with the missing-blob error; and
`Delete` on a reference with no matching record leaves the store
unchanged (and the modelled transaction reports no error). -/
theorem delete_removes_all (s : Store) (ref : BlobRef) :
    BlobStore.Delete s ref = s.filter (fun e => !(isPref (keyPref ref) e.1)) ∧
    NewReader (BlobStore.Delete s ref) ref = .error "missing blob" ∧
    ((∀ e ∈ s, isPref (keyPref ref) e.1 = false) → BlobStore.Delete s ref = s) := by
  have hfe := delete_eq_filter s ref
  refine ⟨hfe, ?_, ?_⟩
  · apply NewReader_none
    intro e he
    rw [hfe, List.mem_filter] at he
    have := he.2
    simp only [Bool.not_eq_true'] at this
    exact this
  · intro hnone
    rw [hfe]
    apply List.filter_eq_self.mpr
    intro e he
    rw [hnone e he]
    rfl

theorem delete_removes_all_witness :
    BlobStore.Delete [((namespacePref ++ byteStr "ns" : Bytes), ([1] : Bytes))]
        ⟨byteStr "ns", byteStr "k"⟩
      = [((namespacePref ++ byteStr "ns" : Bytes), ([1] : Bytes))] :=
  (delete_removes_all [((namespacePref ++ byteStr "ns" : Bytes), ([1] : Bytes))]
    ⟨byteStr "ns", byteStr "k"⟩).2.2 (by decide)

theorem seek_step (w : writer) (off : Nat) :
    ∃ w2, w.Seek off 0 = some (off, w2) ∧ w2.offset = off ∧ w2.length = max w.length off ∧
      w2.buffer = w.buffer ∧ w2.ref = w.ref := by
  refine ⟨{ w with offset := off, length := if w.length < off then off else w.length },
    rfl, rfl, ?_, rfl, rfl⟩
  show (if w.length < off then off else w.length) = max w.length off
  split_ifs <;> omega

theorem txnSet_nil (k v : Bytes) : txnSet [] k v = [] ++ [(k, v)] := rfl

/-- C8 amended: seeking past the current length is legal and leaves a
zero-filled gap, and the repository's documented interleaving —
seek(10), write of ten bytes then of twelve more, seek(0), two short
writes, seek(31), commit — stores exactly the 31 bytes
`STMNB` ‖ five zero bytes ‖ `1234567890` ‖ `abcdefghijk`; the claim's
listed call sequence omits the `write("abcdefghijkl")` step the
documented scenario contains. -/
theorem write_with_seek_scenario (t : GoTime) :
    ∃ wa wb wc wd we s2 r,
      (NewWriter ⟨byteStr "ns", byteStr "key1"⟩).Seek 10 0 = some (10, wa) ∧
      writeList wa [byteStr "1234567890", byteStr "abcdefghijkl"] = some wb ∧
      wb.Seek 0 0 = some (0, wc) ∧
      writeList wc [byteStr "ST", byteStr "MNB"] = some wd ∧
      wd.Seek 31 0 = some (31, we) ∧
      we.Commit t [] = .ok ({ we with buffer := none }, s2) ∧
      NewReader s2 ⟨byteStr "ns", byteStr "key1"⟩ = .ok r ∧
      readAll r
        = byteStr "STMNB" ++ List.replicate 5 0 ++ byteStr "1234567890" ++ byteStr "abcdefghijk" := by
  set c12 : List Bytes := [byteStr "1234567890", byteStr "abcdefghijkl"] with hc12
  set cSM : List Bytes := [byteStr "ST", byteStr "MNB"] with hcSM
  set buf0 : Bytes := List.replicate bufcap 0 with hbuf0
  obtain ⟨wa, hs1, ha_off, ha_len, ha_buf, ha_ref⟩ :=
    seek_step (NewWriter ⟨byteStr "ns", byteStr "key1"⟩) 10
  rw [show (NewWriter ⟨byteStr "ns", byteStr "key1"⟩).length = 0 from rfl] at ha_len
  have hflat2 : c12.flatten.length = 22 := by
    rw [hc12]
    decide
  obtain ⟨wb, hrunb, hb_off, hb_len, hb_buf, hb_ref⟩ :=
    writeList_spec c12 wa buf0 (ha_buf.trans rfl) (by rw [ha_off, ha_len]; omega)
      (by rw [hbuf0, List.length_replicate, ha_off, hflat2]; decide)
  rw [ha_off] at hb_buf
  set buf1 : Bytes := buf0.take 10 ++ c12.flatten ++ buf0.drop (10 + c12.flatten.length) with hbuf1
  have hbuf1len : buf1.length = bufcap := by
    rw [hbuf1, hbuf0, List.length_append, List.length_append, List.length_take, List.length_drop,
      List.length_replicate, hflat2, show bufcap = 5000000 from rfl]
    omega
  obtain ⟨wc, hs2, hc_off, hc_len, hc_buf, hc_ref⟩ := seek_step wb 0
  obtain ⟨wd, hrund, hd_off, hd_len, hd_buf, hd_ref⟩ :=
    writeList_spec cSM wc buf1 (hc_buf.trans hb_buf) (by rw [hc_off]; omega)
      (by rw [hbuf1len, hc_off, hcSM]; decide)
  rw [hc_off] at hd_buf
  set buf2 : Bytes := buf1.take 0 ++ cSM.flatten ++ buf1.drop (0 + cSM.flatten.length) with hbuf2
  obtain ⟨we, hs3, he_off, he_len, he_buf, he_ref⟩ := seek_step wd 31
  have hwe_buf : we.buffer = some buf2 := he_buf.trans hd_buf
  have hcommit := commit_step we buf2 t [] hwe_buf
  have href : we.ref = ⟨byteStr "ns", byteStr "key1"⟩ := by
    rw [he_ref, hd_ref, hc_ref, hb_ref, ha_ref]
    rfl
  have hs2eq : txnSet [] (key we.ref t (we.offset : Int)) (buf2.take we.offset)
      = [] ++ [(key ⟨byteStr "ns", byteStr "key1"⟩ t (31 : Int), buf2.take 31)] := by
    rw [href, he_off]
    rfl
  refine ⟨wa, wb, wc, wd, we, _, ⟨0, (buf2.take 31).length, buf2.take 31⟩,
    hs1, hrunb, hs2, hrund, hs3, hcommit, ?_, ?_⟩
  · rw [hs2eq]
    exact NewReader_fresh [] _ _ _ (by simp) (isPref_keyPref _ t _)
  · rw [readAll_spec _ rfl, List.drop_zero]
    rw [hbuf2, hbuf1, hbuf0, hc12, hcSM]
    decide

/-- C8 counterexample: the claim's listed interleaving — seek(10),
write("1234567890"), seek(0), write("ST"), write("MNB"), seek(31),
commit — does not produce the claimed payload: positions 20–30 of the
stored 31 bytes are zero bytes, not `abcdefghijk`. -/
theorem seek_scenario_literal_counterexample :
    ∃ wa wb wc wd we s2 r,
      (NewWriter ⟨byteStr "ns", byteStr "key1"⟩).Seek 10 0 = some (10, wa) ∧
      writeList wa [byteStr "1234567890"] = some wb ∧
      wb.Seek 0 0 = some (0, wc) ∧
      writeList wc [byteStr "ST", byteStr "MNB"] = some wd ∧
      wd.Seek 31 0 = some (31, we) ∧
      we.Commit ⟨0, 0⟩ [] = .ok ({ we with buffer := none }, s2) ∧
      NewReader s2 ⟨byteStr "ns", byteStr "key1"⟩ = .ok r ∧
      readAll r = byteStr "STMNB" ++ List.replicate 5 0 ++ byteStr "1234567890" ++
        List.replicate 11 0 ∧
      readAll r ≠ byteStr "STMNB" ++ List.replicate 5 0 ++ byteStr "1234567890" ++
        byteStr "abcdefghijk" := by
  set c1 : List Bytes := [byteStr "1234567890"] with hc1
  set cSM : List Bytes := [byteStr "ST", byteStr "MNB"] with hcSM
  set buf0 : Bytes := List.replicate bufcap 0 with hbuf0
  obtain ⟨wa, hs1, ha_off, ha_len, ha_buf, ha_ref⟩ :=
    seek_step (NewWriter ⟨byteStr "ns", byteStr "key1"⟩) 10
  rw [show (NewWriter ⟨byteStr "ns", byteStr "key1"⟩).length = 0 from rfl] at ha_len
  have hflat1 : c1.flatten.length = 10 := by
    rw [hc1]
    decide
  obtain ⟨wb, hrunb, hb_off, hb_len, hb_buf, hb_ref⟩ :=
    writeList_spec c1 wa buf0 (ha_buf.trans rfl) (by rw [ha_off, ha_len]; omega)
      (by rw [hbuf0, List.length_replicate, ha_off, hflat1]; decide)
  rw [ha_off] at hb_buf
  set buf1 : Bytes := buf0.take 10 ++ c1.flatten ++ buf0.drop (10 + c1.flatten.length) with hbuf1
  have hbuf1len : buf1.length = bufcap := by
    rw [hbuf1, hbuf0, List.length_append, List.length_append, List.length_take, List.length_drop,
      List.length_replicate, hflat1, show bufcap = 5000000 from rfl]
    omega
  obtain ⟨wc, hs2, hc_off, hc_len, hc_buf, hc_ref⟩ := seek_step wb 0
  obtain ⟨wd, hrund, hd_off, hd_len, hd_buf, hd_ref⟩ :=
    writeList_spec cSM wc buf1 (hc_buf.trans hb_buf) (by rw [hc_off]; omega)
      (by rw [hbuf1len, hc_off, hcSM]; decide)
  rw [hc_off] at hd_buf
  set buf2 : Bytes := buf1.take 0 ++ cSM.flatten ++ buf1.drop (0 + cSM.flatten.length) with hbuf2
  obtain ⟨we, hs3, he_off, he_len, he_buf, he_ref⟩ := seek_step wd 31
  have hwe_buf : we.buffer = some buf2 := he_buf.trans hd_buf
  have hcommit := commit_step we buf2 ⟨0, 0⟩ [] hwe_buf
  have href : we.ref = ⟨byteStr "ns", byteStr "key1"⟩ := by
    rw [he_ref, hd_ref, hc_ref, hb_ref, ha_ref]
    rfl
  have hs2eq : txnSet [] (key we.ref ⟨0, 0⟩ (we.offset : Int)) (buf2.take we.offset)
      = [] ++ [(key ⟨byteStr "ns", byteStr "key1"⟩ ⟨0, 0⟩ (31 : Int), buf2.take 31)] := by
    rw [href, he_off]
    rfl
  refine ⟨wa, wb, wc, wd, we, _, ⟨0, (buf2.take 31).length, buf2.take 31⟩,
    hs1, hrunb, hs2, hrund, hs3, hcommit, ?_, ?_, ?_⟩
  · rw [hs2eq]
    exact NewReader_fresh [] _ _ _ (by simp) (isPref_keyPref _ ⟨0, 0⟩ _)
  · rw [readAll_spec _ rfl, List.drop_zero]
    rw [hbuf2, hbuf1, hbuf0, hc1, hcSM]
    decide
  · rw [readAll_spec _ rfl, List.drop_zero]
    rw [hbuf2, hbuf1, hbuf0, hc1, hcSM]
    decide

theorem move_step (s : Store) (from_ to_ v : Bytes) (hget : txnGet s from_ = some v) :
    move s from_ to_ = .ok (txnDelete (txnSet s to_ v) from_) := by
  rw [move, hget]

/-- C4: trash-then-restore round-trip.  Starting from a store holding one
namespace marker and one committed record for the reference, `Trash`
moves the record to the trash partition (value unchanged, only the
5-byte partition tag of the key replaced), after which `Open` fails
with the missing-blob error; `RestoreTrash` moves it back, after which
`Open` succeeds and reading to end returns the original payload. -/
theorem trash_restore_roundtrip (ns k B m : Bytes) (t tt : GoTime) :
    ∃ keys s3 r,
      NewReader (BlobStore.Trash
          [(namespacePref ++ m, [1]), (key ⟨ns, k⟩ t (B.length : Int), B)] ⟨ns, k⟩ tt) ⟨ns, k⟩
        = .error "missing blob" ∧
      BlobStore.RestoreTrash (BlobStore.Trash
          [(namespacePref ++ m, [1]), (key ⟨ns, k⟩ t (B.length : Int), B)] ⟨ns, k⟩ tt) ns
        = (keys, .ok s3) ∧
      NewReader s3 ⟨ns, k⟩ = .ok r ∧
      readAll r = B := by
  set X : Bytes := beBytes 8 (uint64Of t.sec) with hX
  set Y : Bytes := beBytes 8 (uint64Of (B.length : Int)) with hY
  set rest : Bytes := ns ++ (k ++ (X ++ Y)) with hrest
  set kb : Bytes := key ⟨ns, k⟩ t (B.length : Int) with hkb
  set marker : Bytes := namespacePref ++ m with hmarker
  set tk : Bytes := trashPref ++ rest with htk
  have hkbassoc : kb = blobPref ++ rest := by
    rw [hkb, hrest]
    simp [key, List.append_assoc]
  have hPassoc : keyPref ⟨ns, k⟩ = blobPref ++ (ns ++ k) := by
    simp [keyPref, List.append_assoc]
  have hpref_marker : isPref (keyPref ⟨ns, k⟩) marker = false := by
    rw [hPassoc, hmarker, blobPref_eq, namespacePref_eq]
    simp [isPref]
  have hpref_kb : isPref (keyPref ⟨ns, k⟩) kb = true := by
    rw [hkb]
    exact isPref_keyPref _ _ _
  have hpref_tk : isPref (keyPref ⟨ns, k⟩) tk = false := by
    rw [hPassoc, htk, blobPref_eq, trashPref_eq]
    simp [isPref]
  have htpref_marker : isPref trashPref marker = false := by
    rw [hmarker, trashPref_eq, namespacePref_eq]
    simp [isPref]
  have htpref_tk : isPref trashPref tk = true := by
    rw [htk]
    exact isPref_append _ _
  have hne_marker_kb : (marker == kb) = false := by
    rw [beq_eq_false_iff_ne, hmarker, hkbassoc, blobPref_eq, namespacePref_eq]
    simp
  have hne_tk_kb : (tk == kb) = false := by
    rw [beq_eq_false_iff_ne, htk, hkbassoc, blobPref_eq, trashPref_eq]
    simp
  have hne_marker_tk : (marker == tk) = false := by
    rw [beq_eq_false_iff_ne, hmarker, htk, trashPref_eq, namespacePref_eq]
    simp
  have hne_kb_tk : (kb == tk) = false := by
    rw [beq_eq_false_iff_ne, htk, hkbassoc, blobPref_eq, trashPref_eq]
    simp
  have hkdrop : kb.drop 5 = rest := by
    rw [hkbassoc, blobPref_eq]
    rfl
  have htdrop : tk.drop 5 = rest := by
    rw [htk, trashPref_eq]
    rfl
  have hscan1 : scanAsc [(marker, ([1] : Bytes)), (kb, B)] (keyPref ⟨ns, k⟩) = [(kb, B)] := by
    rw [scanAsc]
    simp [List.filter_cons, hpref_marker, hpref_kb, sortByKey, insertEntry]
  have htrash : BlobStore.Trash [(marker, ([1] : Bytes)), (kb, B)] ⟨ns, k⟩ tt
      = [(marker, ([1] : Bytes)), (tk, B)] := by
    unfold BlobStore.Trash
    rw [hscan1]
    simp only [List.foldl_cons, List.foldl_nil]
    rw [hkdrop, ← htk]
    rw [txnSet_fresh _ _ _ ?hfr]
    case hfr =>
      intro e he
      rcases List.mem_cons.mp he with rfl | he2
      · intro hc
        simp at hc
        rw [hc] at hne_marker_tk
        simp at hne_marker_tk
      · rcases List.mem_cons.mp he2 with rfl | he3
        · intro hc
          simp at hc
          rw [hc] at hne_kb_tk
          simp at hne_kb_tk
        · simp at he3
    simp [txnDelete, List.filter_cons, List.filter_append, hne_marker_kb, hne_tk_kb]
  have hopen2 : NewReader [(marker, ([1] : Bytes)), (tk, B)] ⟨ns, k⟩ = .error "missing blob" := by
    apply NewReader_none
    intro e he
    rcases List.mem_cons.mp he with rfl | he2
    · exact hpref_marker
    · rcases List.mem_cons.mp he2 with rfl | he3
      · exact hpref_tk
      · simp at he3
  have hget : txnGet [(marker, ([1] : Bytes)), (tk, B)] tk = some B := by
    simp [txnGet, List.find?, hne_marker_tk]
  have hmove : move [(marker, ([1] : Bytes)), (tk, B)] tk (blobPref ++ tk.drop 5)
      = .ok [(marker, ([1] : Bytes)), (kb, B)] := by
    rw [move_step _ _ _ B hget]
    rw [htdrop, ← hkbassoc]
    rw [txnSet_fresh _ _ _ ?hfr2]
    case hfr2 =>
      intro e he
      rcases List.mem_cons.mp he with rfl | he2
      · intro hc
        simp at hc
        rw [hc] at hne_marker_kb
        simp at hne_marker_kb
      · rcases List.mem_cons.mp he2 with rfl | he3
        · intro hc
          simp at hc
          rw [hc] at hne_tk_kb
          simp at hne_tk_kb
        · simp at he3
    simp [txnDelete, List.filter_cons, List.filter_append, hne_marker_tk, hne_kb_tk]
  have hscan2 : scanAsc [(marker, ([1] : Bytes)), (tk, B)] trashPref = [(tk, B)] := by
    rw [scanAsc]
    simp [List.filter_cons, htpref_marker, htpref_tk, sortByKey, insertEntry]
  have hrestore : BlobStore.RestoreTrash [(marker, ([1] : Bytes)), (tk, B)] ns
      = ([tk], .ok [(marker, ([1] : Bytes)), (kb, B)]) := by
    unfold BlobStore.RestoreTrash
    rw [hscan2]
    rw [restoreLoop]
    rw [show ((tk, B) : Entry).1 = tk from rfl, hmove]
    rfl
  refine ⟨[tk], [(marker, ([1] : Bytes)), (kb, B)], ⟨0, B.length, B⟩, ?_, ?_, ?_, ?_⟩
  · rw [htrash]
    exact hopen2
  · rw [htrash]
    exact hrestore
  · exact NewReader_fresh [(marker, ([1] : Bytes))] ⟨ns, k⟩ kb B
      (by
        intro e he
        rcases List.mem_cons.mp he with rfl | he2
        · exact hpref_marker
        · simp at he2)
      hpref_kb
  · rw [readAll_spec _ rfl]
    simp
